import Mathlib

/-!
Verification development for the `@handy-common-utils/promise-utils` library
(`src/promise-utils.ts`).  The TypeScript source is shallowly embedded below:
pure data is translated to Lean data, the event-loop driven parts
(worker pool, timeout race, keyed mutex) are translated to explicit
small-step state machines whose interleaving is chosen by a schedule
parameter, and stateful loops become explicit state passing with fuel.
-/

/-! ## Exported backoff tables (source lines 12 and 25)

Transcribed verbatim from the source file.  The doc comments in the source
describe them as "Array of 25 Fibonacci numbers starting from 1 up to 317811"
and "Array of 25 exponential numbers starting from 1 up to 33554432". -/

def FIBONACCI_SEQUENCE : List ℕ :=
  [1, 2, 3, 5, 8, 13, 21, 34, 55, 89, 144, 233, 377, 610, 987, 1597, 2584,
   4181, 6765, 10946, 17711, 28657, 46368, 75025, 121393, 196418, 317811]

def EXPONENTIAL_SEQUENCE : List ℕ :=
  [1, 2, 4, 8, 16, 32, 64, 128, 256, 512, 1024, 2048, 4096, 8192, 16384,
   1597, 32768, 65536, 131072, 262144, 524288, 1048576, 2097152, 4194304,
   8388608, 16777216, 33554432]

/-! ## `PromiseState` (source lines 30-34) -/

inductive PromiseState : Type where
  | Pending : PromiseState
  | Fulfilled : PromiseState
  | Rejected : PromiseState
deriving DecidableEq

/-- The settled-or-not view of a promise at one instant, as seen by an
observer: still pending, fulfilled with a value, or rejected with a reason. -/
inductive ProbeView (T E : Type) : Type where
  | pending : ProbeView T E
  | fulfilled (v : T) : ProbeView T E
  | rejected (e : E) : ProbeView T E
deriving DecidableEq

/-- `Promise.race([p, t])` where `t` is a fresh, already-resolved sentinel
object (source line 330).  If `p` is already settled it wins the race
(its outcome, value or rejection, is taken); otherwise the sentinel wins.
`Except.ok none` stands for "the sentinel `t` was the observed value";
the sentinel is a fresh object, so `p` can never fulfill with it. -/
def raceWithSentinel {T E : Type} (p : ProbeView T E) : Except E (Option T) :=
  match p with
  | .pending => .ok none
  | .fulfilled v => .ok (.some v)
  | .rejected e => .error e

/-- `.then(onFulfilled, onRejected)` where both handlers return normally:
the resulting promise always fulfills, with whichever handler ran. -/
def thenBoth {A B E : Type} (x : Except E A) (onFulfilled : A → B)
    (onRejected : E → B) : Except Empty B :=
  match x with
  | .ok a => .ok (onFulfilled a)
  | .error e => .ok (onRejected e)

/-- `PromiseUtils.promiseState` (source lines 328-332):
`Promise.race([p, t]).then(v => (v === t) ? Pending : Fulfilled, () => Rejected)`.
The codomain `Except Empty PromiseState` records that the returned promise
can only fulfill (the error type is uninhabited). -/
def promiseState {T E : Type} (p : ProbeView T E) : Except Empty PromiseState :=
  thenBoth (raceWithSentinel p)
    (fun v => match v with
      | none => PromiseState.Pending
      | .some _ => PromiseState.Fulfilled)
    (fun _ => PromiseState.Rejected)

/-- Claim C8: `promiseState(p)` always fulfills and never rejects: its result
is `.ok` of `Pending` when `p` is unsettled at the probe, `Fulfilled` when `p`
has settled successfully, and `Rejected` when `p` has settled with failure.
(The model is a pure function of the instantaneous view of `p`, so it neither
blocks on `p` nor mutates it.) -/
theorem promiseState_total_and_correct {T E : Type} (p : ProbeView T E) :
    promiseState p = .ok (match p with
      | .pending => PromiseState.Pending
      | .fulfilled _ => PromiseState.Fulfilled
      | .rejected _ => PromiseState.Rejected) := by
  cases p <;> rfl

/-- Claim C9 (code evaluation): both exported tables contain 27 terms, not 25;
`FIBONACCI_SEQUENCE` does satisfy the Fibonacci recurrence throughout, but
`EXPONENTIAL_SEQUENCE` is not doubling: the entry at index 15 is 1597
(a Fibonacci number) rather than twice the preceding entry 16384. -/
theorem backoff_tables_evaluation :
    FIBONACCI_SEQUENCE.length = 27 ∧
    EXPONENTIAL_SEQUENCE.length = 27 ∧
    (∀ i < 25,
      FIBONACCI_SEQUENCE[i + 2]? =
        .some ((FIBONACCI_SEQUENCE[i]?.getD 0) + (FIBONACCI_SEQUENCE[i + 1]?.getD 0))) ∧
    EXPONENTIAL_SEQUENCE[14]? = .some 16384 ∧
    EXPONENTIAL_SEQUENCE[15]? = .some 1597 ∧
    1597 ≠ 2 * 16384 := by
  refine ⟨rfl, rfl, ?_, rfl, rfl, by decide⟩
  decide

/-! ## Retry engine: `PromiseUtils.withRetry` (source lines 107-134)

The loop delegates to `PromiseUtils.repeat` with a mutable `attempt` counter
captured by the `operation`/`nextParameter` closures; the embedding threads
`attempt` and the previous outcome explicitly and uses fuel for the otherwise
unbounded recursion (a backoff function may permit unboundedly many retries). -/

/-- The internal `OperationOutcome` of `withRetry` (source line 112):
one attempt produced either a result or an error, never both. -/
inductive OperationOutcome (R E : Type) : Type where
  | result (r : R) : OperationOutcome R E
  | error (e : E) : OperationOutcome R E
deriving DecidableEq

/-- `outcome.result` field access (`undefined` when the attempt errored). -/
def OperationOutcome.resultOpt {R E : Type} : OperationOutcome R E → Option R
  | .result r => .some r
  | .error _ => none

/-- `outcome.error` field access (`undefined` when the attempt succeeded). -/
def OperationOutcome.errorOpt {R E : Type} : OperationOutcome R E → Option E
  | .result _ => none
  | .error e => .some e

/-- Final unwrap (source lines 130-133): `if (finalOutcome.error !== undefined)
throw finalOutcome.error; return finalOutcome.result!`. -/
def unwrapOutcome {R E : Type} : OperationOutcome R E → Except E R
  | .error e => .error e
  | .result r => .ok r

/-- The `backoff` argument: an array of millisecond periods or a function
computing one (`undefined` = none). -/
inductive Backoff (R E : Type) : Type where
  | arr (l : List ℚ) : Backoff R E
  | fn (f : ℕ → Option R → Option E → Option ℚ) : Backoff R E

/-- Source line 120: `Array.isArray(backoff) ? backoff[attempt - 1]
: backoff(attempt, outcome.result, outcome.error)`; an out-of-range array
read yields `undefined`. -/
def getBackoffMs {R E : Type} (backoff : Backoff R E) (attempt : ℕ)
    (o : OperationOutcome R E) : Option ℚ :=
  match backoff with
  | .arr l => l[attempt - 1]?
  | .fn f => f attempt o.resultOpt o.errorOpt

/-- The default `shouldRetry` (source line 110):
`(previousError, _previousResult, _attempt) => previousError !== undefined`. -/
def defaultShouldRetry {R E : Type} (previousError : Option E)
    (_previousResult : Option R) (_attempt : ℕ) : Bool :=
  previousError.isSome

/-- Observable trace of one `withRetry` run. -/
structure RetryRun (R E : Type) : Type where
  /-- the `attempt` value passed to each invocation of `operation`, in order -/
  calls : List ℕ
  /-- the backoff periods awaited between consecutive attempts, in order:
  `waits[i]` is the delay between `calls[i]` and `calls[i+1]` -/
  waits : List ℚ
  /-- the `attempt` values at which the `backoff` array/function was consulted -/
  queriedBackoff : List ℕ
  /-- the outcome of the last attempt -/
  final : OperationOutcome R E
deriving DecidableEq

/-- The retry loop of `withRetry` (source lines 113-129).  Each iteration
runs `operation(attempt, prev.result, prev.error)` and captures its outcome;
the `nextParameter` closure then decides: stop when `shouldRetry` is false,
otherwise consult the backoff and stop when it is `undefined`/`null` or
negative, otherwise wait that long, increment `attempt` and loop.
Fuel exhaustion returns `none` (the real loop would just keep iterating). -/
def withRetryGo {R E : Type} (operation : ℕ → Option R → Option E → OperationOutcome R E)
    (backoff : Backoff R E) (shouldRetry : Option E → Option R → ℕ → Bool) :
    ℕ → ℕ → Option R → Option E → Option (RetryRun R E)
  | 0, _, _, _ => none
  | fuel + 1, attempt, prevResult, prevError =>
    let o := operation attempt prevResult prevError
    if shouldRetry o.errorOpt o.resultOpt attempt then
      match getBackoffMs backoff attempt o with
      | none => .some ⟨[attempt], [], [attempt], o⟩
      | .some backoffMs =>
        if backoffMs < 0 then .some ⟨[attempt], [], [attempt], o⟩
        else
          (withRetryGo operation backoff shouldRetry fuel (attempt + 1)
              o.resultOpt o.errorOpt).map
            (fun run => ⟨attempt :: run.calls, backoffMs :: run.waits,
                         attempt :: run.queriedBackoff, run.final⟩)
    else
      .some ⟨[attempt], [], [], o⟩

/-- `withRetry` itself: run the loop from `attempt = 1` with no previous
outcome, then unwrap the final outcome (source lines 113-134). -/
def withRetryModel {R E : Type}
    (operation : ℕ → Option R → Option E → OperationOutcome R E)
    (backoff : Backoff R E) (shouldRetry : Option E → Option R → ℕ → Bool)
    (fuel : ℕ) : Option (RetryRun R E × Except E R) :=
  (withRetryGo operation backoff shouldRetry fuel 1 none none).map
    (fun run => (run, unwrapOutcome run.final))

/-- Helper for C3: an always-failing operation run with an all-nonnegative
backoff array, started at any attempt `a` between 1 and `N+1`, performs
exactly the attempts `a, a+1, ..., N+1`, waits the remaining backoff entries
in order, and ends with the error of attempt `N+1`. -/
theorem withRetryGo_allFail {E : Type} (B : List ℚ) (hB : ∀ b ∈ B, 0 ≤ b)
    (errs : ℕ → E) :
    ∀ fuel a (r : Option ℕ) (e : Option E), 1 ≤ a → a ≤ B.length + 1 →
    B.length + 2 - a ≤ fuel →
    withRetryGo (R := ℕ) (fun att _ _ => .error (errs att)) (.arr B)
        defaultShouldRetry fuel a r e =
      .some ⟨List.range' a (B.length + 2 - a), B.drop (a - 1),
             List.range' a (B.length + 2 - a), .error (errs (B.length + 1))⟩ := by
  intro fuel
  induction fuel with
  | zero => intro a r e h1 h2 h3; omega
  | succ fuel ih =>
    intro a r e h1 h2 h3
    rw [withRetryGo]
    simp only [OperationOutcome.errorOpt, OperationOutcome.resultOpt,
      defaultShouldRetry, Option.isSome_some, if_true, getBackoffMs]
    by_cases hcase : a = B.length + 1
    · subst hcase
      have hnone : B[B.length + 1 - 1]? = none :=
        List.getElem?_eq_none (by omega)
      rw [hnone]
      have hr : B.length + 2 - (B.length + 1) = 1 := by omega
      rw [hr]
      have hd : B.drop (B.length + 1 - 1) = [] := by
        apply List.drop_eq_nil_of_le; omega
      rw [hd]
      rfl
    · have halt : a - 1 < B.length := by omega
      have hsome : B[a - 1]? = .some (B[a - 1]) := List.getElem?_eq_getElem halt
      have hnonneg : ¬ (B[a - 1] < 0) := by
        simp only [not_lt]
        exact hB _ (List.getElem_mem halt)
      simp only [hsome]
      rw [if_neg hnonneg]
      rw [ih (a + 1) _ _ (by omega) (by omega) (by omega)]
      simp only [Option.map_some', Nat.add_sub_cancel]
      congr 1
      have hlen : B.length + 2 - a = (B.length + 2 - (a + 1)) + 1 := by omega
      have hrange : List.range' a (B.length + 2 - a) =
          a :: List.range' (a + 1) (B.length + 2 - (a + 1)) := by
        rw [hlen, List.range'_succ]
      have ha1 : a - 1 + 1 = a := by omega
      have hdrop : B.drop (a - 1) = B[a - 1] :: B.drop a := by
        have h0 := List.drop_eq_getElem_cons (l := B) (n := a - 1) halt
        rw [ha1] at h0
        exact h0
      rw [hrange, hdrop]

/-- Claim C3: for every backoff array of length N (nonnegative millisecond
periods, as the spec defines backoff arrays) and every operation that fails
on every attempt, `withRetry` with the default `shouldRetry` invokes the
operation exactly N+1 times, with attempt numbers 1 through N+1, waiting
`backoff[i]` between attempt i+1 and attempt i+2 (so the waits are exactly
the array, in order), and the overall promise rejects with exactly the error
captured from the last attempt (attempt N+1). -/
theorem withRetry_allFail_attempts {E : Type} (B : List ℚ) (errs : ℕ → E)
    (fuel : ℕ) (hB : ∀ b ∈ B, 0 ≤ b) (hfuel : B.length + 1 ≤ fuel) :
    withRetryModel (R := ℕ) (fun att _ _ => .error (errs att)) (.arr B)
        defaultShouldRetry fuel =
      .some (⟨List.range' 1 (B.length + 1), B,
              List.range' 1 (B.length + 1), .error (errs (B.length + 1))⟩,
             .error (errs (B.length + 1))) := by
  rw [withRetryModel,
    withRetryGo_allFail B hB errs fuel 1 none none le_rfl (by omega) (by omega)]
  simp only [Option.map_some']
  have h1 : B.length + 2 - 1 = B.length + 1 := by omega
  rw [h1, List.drop_zero]
  rfl

/-- Witness for C3 at a concrete input: backoff array `[5, 7]` (N = 2), the
operation failing with error `att` at attempt `att`: three calls at attempts
1, 2, 3, waits `[5, 7]`, and overall rejection with the error of attempt 3. -/
theorem withRetry_allFail_attempts_witness :
    (∀ b ∈ [(5 : ℚ), 7], 0 ≤ b) ∧
    withRetryModel (R := ℕ) (fun att _ _ => .error att) (.arr [(5 : ℚ), 7])
        defaultShouldRetry 4 =
      .some (⟨[1, 2, 3], [(5 : ℚ), 7], [1, 2, 3], .error 3⟩, .error 3) := by
  refine ⟨by decide, ?_⟩
  have h := withRetry_allFail_attempts (E := ℕ) [(5 : ℚ), 7] (fun att => att) 4
    (by decide) (by decide)
  simpa using h

/-- Claim C4: in the retry loop,
(1) the default `shouldRetry` retries iff the previous attempt produced an
    error (`prevError !== undefined`);
(2) when `shouldRetry` returns false for an outcome, the loop stops at that
    attempt without consulting the backoff at all (the trace records no
    backoff query and no wait);
(3) when `shouldRetry` returns true but the backoff value is missing (array
    exhausted or function returning `undefined`), the loop stops, having
    consulted the backoff exactly at that attempt, without waiting;
(4) likewise when the backoff value is negative;
(5) the stop unwraps the captured outcome: an error outcome makes the overall
    call fail with that error, a result outcome makes it succeed with that
    result. -/
theorem withRetry_stop_conditions {R E : Type}
    (operation : ℕ → Option R → Option E → OperationOutcome R E)
    (backoff : Backoff R E) (shouldRetry : Option E → Option R → ℕ → Bool)
    (fuel attempt : ℕ) (prevResult : Option R) (prevError : Option E) :
    (∀ (e : Option E) (r : Option R) (a : ℕ),
      defaultShouldRetry e r a = true ↔ e ≠ none) ∧
    (shouldRetry (operation attempt prevResult prevError).errorOpt
        (operation attempt prevResult prevError).resultOpt attempt = false →
      withRetryGo operation backoff shouldRetry (fuel + 1) attempt prevResult prevError =
        .some ⟨[attempt], [], [], operation attempt prevResult prevError⟩) ∧
    (shouldRetry (operation attempt prevResult prevError).errorOpt
        (operation attempt prevResult prevError).resultOpt attempt = true →
      getBackoffMs backoff attempt (operation attempt prevResult prevError) = none →
      withRetryGo operation backoff shouldRetry (fuel + 1) attempt prevResult prevError =
        .some ⟨[attempt], [], [attempt], operation attempt prevResult prevError⟩) ∧
    (∀ q : ℚ, shouldRetry (operation attempt prevResult prevError).errorOpt
        (operation attempt prevResult prevError).resultOpt attempt = true →
      getBackoffMs backoff attempt (operation attempt prevResult prevError) = .some q →
      q < 0 →
      withRetryGo operation backoff shouldRetry (fuel + 1) attempt prevResult prevError =
        .some ⟨[attempt], [], [attempt], operation attempt prevResult prevError⟩) ∧
    ((∀ e : E, unwrapOutcome (R := R) (.error e) = .error e) ∧
     (∀ r : R, unwrapOutcome (E := E) (.result r) = .ok r)) := by
  refine ⟨?_, ?_, ?_, ?_, fun _ => rfl, fun _ => rfl⟩
  · intro e r a
    cases e <;> simp [defaultShouldRetry]
  · intro hstop
    rw [withRetryGo, if_neg (by simp [hstop])]
  · intro hretry hmiss
    rw [withRetryGo, if_pos (by simp [hretry]), hmiss]
  · intro q hretry hq hneg
    rw [withRetryGo, if_pos (by simp [hretry])]
    simp only [hq]
    rw [if_pos hneg]

/-- Witness for C4 at concrete inputs: with the default `shouldRetry`,
(a) a first attempt that succeeds with 4 stops immediately, the backoff
never being consulted, and the overall call succeeds with 4;
(b) a first attempt that fails with 9 under an exhausted backoff array stops
after one backoff query, and the overall call fails with 9;
(c) the same under a negative backoff entry. -/
theorem withRetry_stop_conditions_witness :
    (withRetryGo (R := ℕ) (E := ℕ) (fun _ _ _ => .result 4) (.arr [3])
        defaultShouldRetry 5 1 none none = .some ⟨[1], [], [], .result 4⟩ ∧
      unwrapOutcome (R := ℕ) (E := ℕ) (.result 4) = .ok 4) ∧
    (withRetryGo (R := ℕ) (E := ℕ) (fun _ _ _ => .error 9) (.arr [])
        defaultShouldRetry 5 1 none none = .some ⟨[1], [], [1], .error 9⟩ ∧
      unwrapOutcome (R := ℕ) (E := ℕ) (.error 9) = .error 9) ∧
    withRetryGo (R := ℕ) (E := ℕ) (fun _ _ _ => .error 9) (.arr [-2])
        defaultShouldRetry 5 1 none none = .some ⟨[1], [], [1], .error 9⟩ := by
  refine ⟨⟨?_, ?_⟩, ⟨?_, ?_⟩, ?_⟩
  · exact (withRetry_stop_conditions (fun _ _ _ => .result 4) (.arr [3])
      defaultShouldRetry 4 1 none none).2.1 (by decide)
  · exact ((withRetry_stop_conditions (R := ℕ) (E := ℕ) (fun _ _ _ => .result 4)
      (.arr [3]) defaultShouldRetry 4 1 none none).2.2.2.2).2 4
  · exact (withRetry_stop_conditions (fun _ _ _ => .error 9) (.arr [])
      defaultShouldRetry 4 1 none none).2.2.1 (by decide) (by decide)
  · exact ((withRetry_stop_conditions (R := ℕ) (E := ℕ) (fun _ _ _ => .error 9)
      (.arr []) defaultShouldRetry 4 1 none none).2.2.2.2).1 9
  · exact (withRetry_stop_conditions (fun _ _ _ => .error 9) (.arr [-2])
      defaultShouldRetry 4 1 none none).2.2.2.1 (-2) (by decide) (by decide)
      (by norm_num)

/-! ## Bounded-parallelism runner: `PromiseUtils.inParallel` (source lines 207-236)
and `PromiseUtils.withConcurrency` (source lines 160-166)

JavaScript is single-threaded: the worker pool is embedded as a small-step
state machine.  Creating the pool runs every worker body synchronously up to
its first `await` (each worker pulls one job from the shared iterator, in
creation order); afterwards the event loop fires the settlement of one
running worker's awaited job at a time.  The order in which jobs settle is
the only source of nondeterminism, so it is a `sched : List ℕ` parameter
naming which worker's awaited job settles next; quantifying over `sched`
quantifies over all completion orders. -/

/-- A JavaScript `number` as used for the `parallelism` argument: either NaN
or a (rational approximation of a) real value. -/
inductive JSNum : Type where
  | nan : JSNum
  | num (q : ℚ) : JSNum
deriving DecidableEq

/-- Source lines 215-217: `if (parallelism < 1) { parallelism = 1; }`.
`NaN < 1` is false in JavaScript, so NaN is NOT replaced by 1. -/
def coerceParallelism (parallelism : JSNum) : JSNum :=
  match parallelism with
  | .nan => .nan
  | .num q => if q < 1 then .num 1 else .num q

/-- Source line 221: `Array.from({ length: Math.floor(parallelism) })`.
`Math.floor(NaN)` is NaN, and an array-like length of NaN is converted to 0
(ToLength), so NaN produces an empty worker pool; negative lengths also
clamp to 0 (unreachable after the coercion above). -/
def numWorkers (parallelism : JSNum) : ℕ :=
  match coerceParallelism parallelism with
  | .nan => 0
  | .num q => (Rat.floor q).toNat

/-- The outcome a job's operation settles with: fulfilled with a result or
rejected with an error. -/
inductive JobOutcome (R E : Type) : Type where
  | success (r : R) : JobOutcome R E
  | failure (e : E) : JobOutcome R E
deriving DecidableEq

/-- One worker of the pool: looping with a pulled job in flight (awaiting it
at source line 231), finished because the iterator was exhausted (source
lines 225-227), or exited via a propagated job failure (abort mode). -/
inductive WorkerStatus (E : Type) : Type where
  | running (jobIndex : ℕ) : WorkerStatus E
  | finished : WorkerStatus E
  | failed (e : E) : WorkerStatus E
deriving DecidableEq

/-- Whether the worker's async function is still unsettled. -/
def WorkerStatus.isRunning {E : Type} : WorkerStatus E → Bool
  | .running _ => true
  | _ => false

/-- The shared state of one `inParallel` call: the shared iterator cursor
(`index`/`iterator` of source lines 219-220), the `jobResults` array written
by index (source line 231, modelled as a map since JavaScript arrays accept
sparse index assignment), the worker pool, and the reason of the first
worker-promise rejection (what `await Promise.all(promises)` at source line
234 would throw, `none` while no worker has rejected). -/
structure PoolState (R E : Type) : Type where
  cursor : ℕ
  results : ℕ → Option (JobOutcome R E)
  workers : List (WorkerStatus E)
  firstError : Option E

/-- One worker body starting (source lines 221-232): it synchronously calls
`iterator.next()`; if the sequence is exhausted the loop breaks at once,
otherwise the worker takes the next index, starts the operation, and suspends
awaiting it. -/
def spawnWorker {R E : Type} (n : ℕ) (s : PoolState R E) : PoolState R E :=
  if s.cursor < n then
    { s with workers := s.workers ++ [.running s.cursor], cursor := s.cursor + 1 }
  else
    { s with workers := s.workers ++ [.finished] }

/-- Pool creation (source line 221): the `map` callback runs each worker
body in order up to its first suspension. -/
def initPool (R E : Type) (w n : ℕ) : PoolState R E :=
  (List.range w).foldl (fun s _ => spawnWorker n s) ⟨0, fun _ => none, [], none⟩

/-- The settlement of worker `w`'s awaited job (the resumption of source
line 231): in abort mode a failure propagates out of the worker's loop
(nothing is stored, the worker's promise rejects — recorded in `firstError`
if it is the first rejection); otherwise the outcome (a failure being caught
as a plain value by `.catch(error => error)`) is stored at the job's index
and the worker synchronously loops: it pulls the next job if the iterator
has more, else finishes.  A `w` that does not name a running worker changes
nothing (no such event can fire). -/
def settle {D R E : Type} (abortOnError : Bool) (jobs : List D)
    (op : D → ℕ → JobOutcome R E) (s : PoolState R E) (w : ℕ) : PoolState R E :=
  match s.workers[w]? with
  | .some (.running j) =>
    match jobs[j]? with
    | .some d =>
      match op d j, abortOnError with
      | .failure e, true =>
        { s with workers := s.workers.set w (.failed e),
                 firstError := (s.firstError).orElse (fun _ => .some e) }
      | o, _ =>
        if s.cursor < jobs.length then
          { s with results := fun i => if i = j then .some o else s.results i,
                   workers := s.workers.set w (.running s.cursor),
                   cursor := s.cursor + 1 }
        else
          { s with results := fun i => if i = j then .some o else s.results i,
                   workers := s.workers.set w .finished }
    | none => s
  | _ => s

/-- A whole run of `inParallel`'s pool: create the workers, then fire the
settlements listed in `sched`, in order. -/
def runPool {D R E : Type} (abortOnError : Bool) (parallelism : JSNum)
    (jobs : List D) (op : D → ℕ → JobOutcome R E) (sched : List ℕ) :
    PoolState R E :=
  sched.foldl (settle abortOnError jobs op)
    (initPool R E (numWorkers parallelism) jobs.length)

/-- `Promise.all(promises)` resolves once no worker is still running. -/
def allDone {R E : Type} (s : PoolState R E) : Bool :=
  s.workers.all (fun st => ! st.isRunning)

/-- The `jobResults` array as returned: every write is at an index below the
cursor, and (in the states the source can return it from) every index below
the cursor has been written, so reading off indices `0..cursor-1` is the
returned array. -/
def gather {R E : Type} (s : PoolState R E) : List (JobOutcome R E) :=
  (List.range s.cursor).filterMap s.results

/-- The observable settlement of the promise returned by `inParallel` after
the events of `sched`: `none` while it is still pending, `.some (.error e)`
once a worker promise has rejected (`await Promise.all` throws the first
rejection, source line 234), `.some (.ok array)` once every worker finished. -/
def inParallelResult {D R E : Type} (abortOnError : Bool) (parallelism : JSNum)
    (jobs : List D) (op : D → ℕ → JobOutcome R E) (sched : List ℕ) :
    Option (Except E (List (JobOutcome R E))) :=
  let s := runPool abortOnError parallelism jobs op sched
  match s.firstError with
  | .some e => .some (.error e)
  | none => if allDone s then .some (.ok (gather s)) else none

/-- `PromiseUtils.withConcurrency` (source lines 160-166): it forwards to
`inParallel(concurrency, jobs, operation)` WITHOUT an options argument, so
`options?.abortOnError` is `undefined` and the runner takes the
catch-and-store path (default mode). -/
def withConcurrencyModel {D R E : Type} (concurrency : JSNum) (jobs : List D)
    (op : D → ℕ → JobOutcome R E) (sched : List ℕ) :
    Option (Except E (List (JobOutcome R E))) :=
  inParallelResult false concurrency jobs op sched

/-- Equality of `Except` values is decidable (needed to evaluate runs of the
model on concrete inputs). -/
instance exceptDecidableEq {E A : Type} [DecidableEq E] [DecidableEq A] :
    DecidableEq (Except E A) := fun x y =>
  match x, y with
  | .ok a, .ok b => decidable_of_iff (a = b) (by simp)
  | .error e, .error f => decidable_of_iff (e = f) (by simp)
  | .ok _, .error _ => .isFalse (fun h => Except.noConfusion h)
  | .error _, .ok _ => .isFalse (fun h => Except.noConfusion h)

/-- Invariant of the pool state machine, preserved by worker creation and by
every settlement event. -/
structure PoolInv {D R E : Type} (abortOnError : Bool) (jobs : List D)
    (op : D → ℕ → JobOutcome R E) (s : PoolState R E) : Prop where
  /-- the shared cursor never passes the end of the job sequence -/
  cursor_le : s.cursor ≤ jobs.length
  /-- every recorded entry sits at a pulled index and is exactly the outcome
  of that job's operation -/
  res_correct : ∀ (i : ℕ) (o : JobOutcome R E), s.results i = .some o →
    i < s.cursor ∧ (jobs[i]?).map (fun d => op d i) = .some o
  /-- a running worker holds an index that was pulled from the cursor -/
  run_lt : ∀ (w j : ℕ), s.workers[w]? = .some (WorkerStatus.running j) →
    j < s.cursor
  /-- a worker only finishes after observing the iterator exhausted -/
  fin_cursor : ∀ (w : ℕ), s.workers[w]? = .some WorkerStatus.finished →
    s.cursor = jobs.length
  /-- a recorded first rejection is a verbatim failure of some job -/
  err_valid : ∀ (e : E), s.firstError = .some e →
    ∃ j d, jobs[j]? = .some d ∧ op d j = JobOutcome.failure e
  /-- in default mode failures are caught: no worker rejects -/
  no_fail : abortOnError = false →
    s.firstError = none ∧
      ∀ (w : ℕ) (e : E), s.workers[w]? ≠ .some (WorkerStatus.failed e)
  /-- in default mode every pulled index is recorded or in flight -/
  pulled : abortOnError = false → ∀ (i : ℕ), i < s.cursor →
    (s.results i).isSome = true ∨
      ∃ w : ℕ, s.workers[w]? = .some (WorkerStatus.running i)

/-- Looking up any index of a one-element list yields its element. -/
theorem singleton_getElem?_some {α : Type} {x y : α} {k : ℕ}
    (h : [x][k]? = .some y) : x = y := by
  have hk := (List.getElem?_eq_some_iff.mp h).1
  simp only [List.length_singleton] at hk
  have hk0 : k = 0 := by omega
  subst hk0
  simp only [List.getElem?_cons_zero, Option.some.injEq] at h
  exact h

theorem spawnWorker_inv {D R E : Type} {abortOnError : Bool} {jobs : List D}
    {op : D → ℕ → JobOutcome R E} {s : PoolState R E}
    (hs : PoolInv abortOnError jobs op s) :
    PoolInv abortOnError jobs op (spawnWorker jobs.length s) := by
  by_cases hc : s.cursor < jobs.length
  all_goals simp only [spawnWorker, if_pos, if_neg, hc, if_true, if_false]
  · refine ⟨by dsimp only; omega, ?_, ?_, ?_, hs.err_valid, ?_, ?_⟩ <;> dsimp only
    · intro i o h
      obtain ⟨h1, h2⟩ := hs.res_correct i o h
      exact ⟨by omega, h2⟩
    · intro w' j h
      by_cases hw' : w' < s.workers.length
      · rw [List.getElem?_append_left hw'] at h
        have := hs.run_lt w' j h
        omega
      · rw [List.getElem?_append_right (by omega)] at h
        cases singleton_getElem?_some h
        omega
    · intro w' h
      by_cases hw' : w' < s.workers.length
      · rw [List.getElem?_append_left hw'] at h
        have := hs.fin_cursor w' h
        omega
      · rw [List.getElem?_append_right (by omega)] at h
        cases singleton_getElem?_some h
    · intro ha
      obtain ⟨h1, h2⟩ := hs.no_fail ha
      refine ⟨h1, ?_⟩
      intro w' e h
      by_cases hw' : w' < s.workers.length
      · rw [List.getElem?_append_left hw'] at h
        exact h2 w' e h
      · rw [List.getElem?_append_right (by omega)] at h
        cases singleton_getElem?_some h
    · intro ha i hi
      rcases Nat.lt_succ_iff_lt_or_eq.mp hi with hlt | heq
      · rcases hs.pulled ha i hlt with hres | ⟨w', hw'⟩
        · exact Or.inl hres
        · refine Or.inr ⟨w', ?_⟩
          have hb : w' < s.workers.length :=
            (List.getElem?_eq_some_iff.mp hw').1
          rw [List.getElem?_append_left hb]
          exact hw'
      · subst heq
        exact Or.inr ⟨s.workers.length, List.getElem?_concat_length _ _⟩
  · have hceq : s.cursor = jobs.length := by
      have := hs.cursor_le
      omega
    refine ⟨hs.cursor_le, hs.res_correct, ?_, ?_, hs.err_valid, ?_, ?_⟩ <;> dsimp only
    · intro w' j h
      by_cases hw' : w' < s.workers.length
      · rw [List.getElem?_append_left hw'] at h
        exact hs.run_lt w' j h
      · rw [List.getElem?_append_right (by omega)] at h
        cases singleton_getElem?_some h
    · intro w' h
      by_cases hw' : w' < s.workers.length
      · rw [List.getElem?_append_left hw'] at h
        exact hs.fin_cursor w' h
      · exact hceq
    · intro ha
      obtain ⟨h1, h2⟩ := hs.no_fail ha
      refine ⟨h1, ?_⟩
      intro w' e h
      by_cases hw' : w' < s.workers.length
      · rw [List.getElem?_append_left hw'] at h
        exact h2 w' e h
      · rw [List.getElem?_append_right (by omega)] at h
        cases singleton_getElem?_some h
    · intro ha i hi
      rcases hs.pulled ha i hi with hres | ⟨w', hw'⟩
      · exact Or.inl hres
      · refine Or.inr ⟨w', ?_⟩
        have hb : w' < s.workers.length :=
          (List.getElem?_eq_some_iff.mp hw').1
        rw [List.getElem?_append_left hb]
        exact hw'

theorem initPool_inv {D R E : Type} (abortOnError : Bool) (jobs : List D)
    (op : D → ℕ → JobOutcome R E) (w : ℕ) :
    PoolInv abortOnError jobs op (initPool R E w jobs.length) := by
  have base : PoolInv abortOnError jobs op
      (⟨0, fun _ => none, [], none⟩ : PoolState R E) := by
    refine ⟨Nat.zero_le _, ?_, ?_, ?_, ?_, ?_, ?_⟩ <;> dsimp only
    · intro i o h
      exact Option.noConfusion h
    · intro w' j h
      rw [List.getElem?_nil] at h
      exact Option.noConfusion h
    · intro w' h
      rw [List.getElem?_nil] at h
      exact Option.noConfusion h
    · intro e h
      exact Option.noConfusion h
    · intro _
      refine ⟨rfl, ?_⟩
      intro w' e h
      rw [List.getElem?_nil] at h
      exact Option.noConfusion h
    · intro _ i hi
      omega
  have gen : ∀ (l : List ℕ) (s : PoolState R E), PoolInv abortOnError jobs op s →
      PoolInv abortOnError jobs op
        (l.foldl (fun s _ => spawnWorker jobs.length s) s) := by
    intro l
    induction l with
    | nil => intro s hs; exact hs
    | cons a l ih =>
      intro s hs
      rw [List.foldl_cons]
      exact ih _ (spawnWorker_inv hs)
  exact gen _ _ base

theorem settle_store_inv {D R E : Type} {abortOnError : Bool} {jobs : List D}
    {op : D → ℕ → JobOutcome R E} {s : PoolState R E}
    (w j : ℕ) (o : JobOutcome R E)
    (hw : s.workers[w]? = .some (WorkerStatus.running j))
    (ho : (jobs[j]?).map (fun d => op d j) = .some o)
    (hs : PoolInv abortOnError jobs op s) :
    PoolInv abortOnError jobs op
      (if s.cursor < jobs.length then
        { s with results := fun i => if i = j then .some o else s.results i,
                 workers := s.workers.set w (.running s.cursor),
                 cursor := s.cursor + 1 }
       else
        { s with results := fun i => if i = j then .some o else s.results i,
                 workers := s.workers.set w .finished }) := by
  have hwlt : w < s.workers.length := (List.getElem?_eq_some_iff.mp hw).1
  have hjc : j < s.cursor := hs.run_lt w j hw
  by_cases hcur : s.cursor < jobs.length
  all_goals simp only [if_pos, if_neg, hcur, if_true, if_false]
  · refine ⟨by dsimp only; omega, ?_, ?_, ?_, hs.err_valid, ?_, ?_⟩ <;> dsimp only
    · intro i o' h
      by_cases hij : i = j
      · subst hij
        rw [if_pos rfl] at h
        cases h
        exact ⟨by omega, ho⟩
      · rw [if_neg hij] at h
        obtain ⟨h1, h2⟩ := hs.res_correct i o' h
        exact ⟨by omega, h2⟩
    · intro w' j' h
      by_cases hww : w = w'
      · subst hww
        rw [List.getElem?_set_self hwlt] at h
        cases h
        omega
      · rw [List.getElem?_set_ne hww] at h
        have := hs.run_lt w' j' h
        omega
    · intro w' h
      by_cases hww : w = w'
      · subst hww
        rw [List.getElem?_set_self hwlt] at h
        cases h
      · rw [List.getElem?_set_ne hww] at h
        exact absurd (hs.fin_cursor w' h) (by omega)
    · intro ha
      obtain ⟨h1, h2⟩ := hs.no_fail ha
      refine ⟨h1, ?_⟩
      intro w' e h
      by_cases hww : w = w'
      · subst hww
        rw [List.getElem?_set_self hwlt] at h
        cases h
      · rw [List.getElem?_set_ne hww] at h
        exact h2 w' e h
    · intro ha i hi
      rcases Nat.lt_succ_iff_lt_or_eq.mp hi with hlt | heq
      · by_cases hij : i = j
        · subst hij
          refine Or.inl ?_
          rw [if_pos rfl]
          rfl
        · rcases hs.pulled ha i hlt with hres | ⟨w', hw'⟩
          · refine Or.inl ?_
            rw [if_neg hij]
            exact hres
          · by_cases hww : w = w'
            · subst hww
              rw [hw] at hw'
              cases hw'
              exact absurd rfl hij
            · exact Or.inr ⟨w', by rw [List.getElem?_set_ne hww]; exact hw'⟩
      · subst heq
        exact Or.inr ⟨w, by rw [List.getElem?_set_self hwlt]⟩
  · refine ⟨hs.cursor_le, ?_, ?_, ?_, hs.err_valid, ?_, ?_⟩ <;> dsimp only
    · intro i o' h
      by_cases hij : i = j
      · subst hij
        rw [if_pos rfl] at h
        cases h
        exact ⟨hjc, ho⟩
      · rw [if_neg hij] at h
        exact hs.res_correct i o' h
    · intro w' j' h
      by_cases hww : w = w'
      · subst hww
        rw [List.getElem?_set_self hwlt] at h
        cases h
      · rw [List.getElem?_set_ne hww] at h
        exact hs.run_lt w' j' h
    · intro w' h
      by_cases hww : w = w'
      · subst hww
        have := hs.cursor_le
        omega
      · rw [List.getElem?_set_ne hww] at h
        exact hs.fin_cursor w' h
    · intro ha
      obtain ⟨h1, h2⟩ := hs.no_fail ha
      refine ⟨h1, ?_⟩
      intro w' e h
      by_cases hww : w = w'
      · subst hww
        rw [List.getElem?_set_self hwlt] at h
        cases h
      · rw [List.getElem?_set_ne hww] at h
        exact h2 w' e h
    · intro ha i hi
      by_cases hij : i = j
      · subst hij
        refine Or.inl ?_
        rw [if_pos rfl]
        rfl
      · rcases hs.pulled ha i hi with hres | ⟨w', hw'⟩
        · refine Or.inl ?_
          rw [if_neg hij]
          exact hres
        · by_cases hww : w = w'
          · subst hww
            rw [hw] at hw'
            cases hw'
            exact absurd rfl hij
          · exact Or.inr ⟨w', by rw [List.getElem?_set_ne hww]; exact hw'⟩

theorem settle_inv {D R E : Type} {abortOnError : Bool} {jobs : List D}
    {op : D → ℕ → JobOutcome R E} {s : PoolState R E} (w : ℕ)
    (hs : PoolInv abortOnError jobs op s) :
    PoolInv abortOnError jobs op (settle abortOnError jobs op s w) := by
  cases hw : s.workers[w]? with
  | none => simpa only [settle, hw] using hs
  | some st =>
    cases st with
    | finished => simpa only [settle, hw] using hs
    | failed e => simpa only [settle, hw] using hs
    | running j =>
      have hwlt : w < s.workers.length := (List.getElem?_eq_some_iff.mp hw).1
      have hjc : j < s.cursor := hs.run_lt w j hw
      have hjn : j < jobs.length := lt_of_lt_of_le hjc hs.cursor_le
      have hjget : jobs[j]? = .some (jobs[j]) := List.getElem?_eq_getElem hjn
      have hmap : ∀ o, op (jobs[j]) j = o →
          (jobs[j]?).map (fun d => op d j) = .some o := by
        intro o hoeq
        rw [hjget, Option.map_some', hoeq]
      cases ho : op (jobs[j]) j with
      | success r =>
        cases habort : abortOnError with
        | false =>
          subst habort
          simp only [settle, hw, hjget, ho]
          exact settle_store_inv w j (.success r) hw (hmap _ ho) hs
        | true =>
          subst habort
          simp only [settle, hw, hjget, ho]
          exact settle_store_inv w j (.success r) hw (hmap _ ho) hs
      | failure e =>
        cases habort : abortOnError with
        | false =>
          subst habort
          simp only [settle, hw, hjget, ho]
          exact settle_store_inv w j (.failure e) hw (hmap _ ho) hs
        | true =>
          subst habort
          simp only [settle, hw, hjget, ho]
          refine ⟨hs.cursor_le, hs.res_correct, ?_, ?_, ?_, ?_, ?_⟩ <;> dsimp only
          · intro w' j' h
            by_cases hww : w = w'
            · subst hww
              rw [List.getElem?_set_self hwlt] at h
              cases h
            · rw [List.getElem?_set_ne hww] at h
              exact hs.run_lt w' j' h
          · intro w' h
            by_cases hww : w = w'
            · subst hww
              rw [List.getElem?_set_self hwlt] at h
              cases h
            · rw [List.getElem?_set_ne hww] at h
              exact hs.fin_cursor w' h
          · intro e' h
            cases hfe : s.firstError with
            | some e0 =>
              rw [hfe] at h
              have h2 : Option.some e0 = .some e' := h
              cases h2
              exact hs.err_valid _ hfe
            | none =>
              rw [hfe] at h
              have h2 : Option.some e = .some e' := h
              cases h2
              exact ⟨j, jobs[j], hjget, ho⟩
          · intro ha
            exact Bool.noConfusion ha
          · intro ha
            exact Bool.noConfusion ha

theorem runPool_inv {D R E : Type} (abortOnError : Bool) (parallelism : JSNum)
    (jobs : List D) (op : D → ℕ → JobOutcome R E) (sched : List ℕ) :
    PoolInv abortOnError jobs op
      (runPool abortOnError parallelism jobs op sched) := by
  have gen : ∀ (l : List ℕ) (s : PoolState R E), PoolInv abortOnError jobs op s →
      PoolInv abortOnError jobs op (l.foldl (settle abortOnError jobs op) s) := by
    intro l
    induction l with
    | nil => exact fun s hs => hs
    | cons a l ih =>
      intro s hs
      rw [List.foldl_cons]
      exact ih _ (settle_inv a hs)
  exact gen sched _ (initPool_inv abortOnError jobs op (numWorkers parallelism))

theorem spawnWorker_workers_length {R E : Type} (n : ℕ) (s : PoolState R E) :
    (spawnWorker n s).workers.length = s.workers.length + 1 := by
  unfold spawnWorker
  split <;> simp

theorem initPool_workers_length (R E : Type) (w n : ℕ) :
    (initPool R E w n).workers.length = w := by
  have gen : ∀ (l : List ℕ) (s : PoolState R E),
      ((l.foldl (fun s _ => spawnWorker n s) s).workers.length) =
        s.workers.length + l.length := by
    intro l
    induction l with
    | nil => intro s; simp
    | cons a l ih =>
      intro s
      rw [List.foldl_cons, ih, spawnWorker_workers_length]
      simp only [List.length_cons]
      omega
  have h := gen (List.range w) (⟨0, fun _ => none, [], none⟩ : PoolState R E)
  simpa [initPool] using h

theorem settle_workers_length {D R E : Type} (abortOnError : Bool)
    (jobs : List D) (op : D → ℕ → JobOutcome R E) (s : PoolState R E) (w : ℕ) :
    (settle abortOnError jobs op s w).workers.length = s.workers.length := by
  unfold settle
  split
  · split
    · split
      · simp
      · split <;> simp
    · rfl
  · rfl

theorem runPool_workers_length {D R E : Type} (abortOnError : Bool)
    (parallelism : JSNum) (jobs : List D) (op : D → ℕ → JobOutcome R E)
    (sched : List ℕ) :
    (runPool abortOnError parallelism jobs op sched).workers.length =
      numWorkers parallelism := by
  have gen : ∀ (l : List ℕ) (s : PoolState R E),
      (l.foldl (settle abortOnError jobs op) s).workers.length =
        s.workers.length := by
    intro l
    induction l with
    | nil => intro s; rfl
    | cons a l ih =>
      intro s
      rw [List.foldl_cons, ih, settle_workers_length]
  rw [runPool, gen, initPool_workers_length]

theorem gather_eq_core {D R E : Type} (op : D → ℕ → JobOutcome R E)
    (res : ℕ → Option (JobOutcome R E)) :
    ∀ (l : List D) (k : ℕ),
    (∀ i, i < l.length → res (k + i) = (l[i]?).map (fun d => op d (k + i))) →
    (List.range' k l.length).filterMap res = l.mapIdx (fun i d => op d (k + i)) := by
  intro l
  induction l with
  | nil => intro k _; rfl
  | cons d l ih =>
    intro k h
    have h0 : res k = .some (op d k) := by
      have h00 := h 0 (by simp)
      simpa using h00
    rw [List.length_cons, List.range'_succ, List.filterMap_cons, h0,
      List.mapIdx_cons]
    have htail : ∀ i, i < l.length →
        res ((k + 1) + i) = (l[i]?).map (fun d' => op d' ((k + 1) + i)) := by
      intro i hi
      have hidx : k + (i + 1) = (k + 1) + i := by omega
      have h1 := h (i + 1) (by simpa using Nat.succ_lt_succ hi)
      rw [hidx] at h1
      simpa using h1
    rw [ih (k + 1) htail]
    have hfun : (fun (i : ℕ) (d' : D) => op d' (k + (i + 1))) =
        (fun (i : ℕ) (d' : D) => op d' ((k + 1) + i)) := by
      funext i d'
      congr 1
      omega
    rw [hfun]
    simp

/-- Claim C5: in default mode (no `abortOnError`), whenever `inParallel` with
at least one worker resolves — which requires every worker to have finished,
i.e. every job to have settled — it resolves to an array of the same length
as the job list in which the entry at index `i` is exactly the outcome of
`jobs[i]` (its fulfilled value, or its rejection reason stored as a plain
value), regardless of the completion order `sched`. -/
theorem inParallel_default_order {D R E : Type} (parallelism : JSNum)
    (jobs : List D) (op : D → ℕ → JobOutcome R E) (sched : List ℕ)
    (res : Except E (List (JobOutcome R E)))
    (hW : 1 ≤ numWorkers parallelism)
    (hres : inParallelResult false parallelism jobs op sched = .some res) :
    res = .ok (jobs.mapIdx (fun i d => op d i)) := by
  have hinv := runPool_inv false parallelism jobs op sched
  have hlen := runPool_workers_length false parallelism jobs op sched
  unfold inParallelResult at hres
  set s := runPool false parallelism jobs op sched with hsdef
  obtain ⟨hfe, hnofail⟩ := hinv.no_fail rfl
  simp only [hfe] at hres
  cases hdone : allDone s with
  | false =>
    rw [hdone] at hres
    simp at hres
  | true =>
    rw [hdone] at hres
    simp only [if_true] at hres
    have hres2 : Except.ok (gather s) = res := by
      injection hres
    have hpos : 0 < s.workers.length := by omega
    have hst : s.workers[0]? = .some (s.workers[0]) := List.getElem?_eq_getElem hpos
    have hnotrun : ∀ (w i : ℕ),
        s.workers[w]? ≠ .some (WorkerStatus.running i) := by
      intro w i hcontra
      have hmem := List.getElem?_mem hcontra
      have hall := List.all_eq_true.mp hdone _ hmem
      simp [WorkerStatus.isRunning] at hall
    have hfin : s.workers[0] = WorkerStatus.finished := by
      cases hh : s.workers[0] with
      | running i =>
        exact absurd (by rw [hst, hh]) (hnotrun 0 i)
      | finished => rfl
      | failed e =>
        exact absurd (by rw [hst, hh]) (hnofail 0 e)
    have hcursor : s.cursor = jobs.length :=
      hinv.fin_cursor 0 (by rw [hst, hfin])
    have hresall : ∀ i, i < jobs.length →
        s.results i = (jobs[i]?).map (fun d => op d i) := by
      intro i hi
      rcases hinv.pulled rfl i (by omega) with hs1 | ⟨w, hw⟩
      · obtain ⟨o, ho⟩ := Option.isSome_iff_exists.mp hs1
        obtain ⟨_, h2⟩ := hinv.res_correct i o ho
        rw [ho, h2]
      · exact absurd hw (hnotrun w i)
    have hg : gather s = jobs.mapIdx (fun i d => op d i) := by
      simp only [gather]
      rw [hcursor, List.range_eq_range']
      have h0 : ∀ i, i < jobs.length →
          s.results (0 + i) = (jobs[i]?).map (fun d => op d (0 + i)) := by
        intro i hi
        rw [Nat.zero_add]
        exact hresall i hi
      rw [gather_eq_core op s.results jobs 0 h0]
      have hfn : (fun (i : ℕ) (d : D) => op d (0 + i)) =
          (fun (i : ℕ) (d : D) => op d i) := by
        funext i d
        rw [Nat.zero_add]
      rw [hfn]
    rw [← hres2, hg]

/-- Witness for C5 at a concrete input: two workers, jobs `[30, 40]` where
job 0 fulfills with its data and job 1 rejects, jobs completing in reverse
order (`sched = [1, 0]`): the resolved array is
`[success 30, failure 41]`, in input order. -/
theorem inParallel_default_order_witness :
    1 ≤ numWorkers (.num 2) ∧
    (Except.ok [JobOutcome.success 30, JobOutcome.failure 41] :
        Except ℕ (List (JobOutcome ℕ ℕ))) =
      .ok (([30, 40] : List ℕ).mapIdx
        (fun i d => if i = 0 then JobOutcome.success d else .failure (d + 1))) :=
  ⟨by decide,
    inParallel_default_order (.num 2) [30, 40]
      (fun d i => if i = 0 then JobOutcome.success d else .failure (d + 1))
      [1, 0] (Except.ok [JobOutcome.success 30, JobOutcome.failure 41])
      (by decide) (by decide)⟩

theorem settle_empty_workers {D R E : Type} (abortOnError : Bool)
    (jobs : List D) (op : D → ℕ → JobOutcome R E) (s : PoolState R E) (w : ℕ)
    (h : s.workers = []) : settle abortOnError jobs op s w = s := by
  have hnone : s.workers[w]? = none := by
    rw [h]
    exact List.getElem?_nil
  simp only [settle, hnone]

/-- Claim C10: if `parallelism` is NaN, it escapes the coerce-to-1 branch
(`NaN < 1` is false), the worker-pool length `Math.floor(NaN)` produces zero
workers, the shared cursor never moves (no job is ever pulled), and both
`inParallel` (either mode) and `withConcurrency` resolve immediately to the
empty array, silently processing no jobs — for every job list, including
non-empty ones. -/
theorem inParallel_nan_no_jobs {D R E : Type} (abortOnError : Bool)
    (jobs : List D) (op : D → ℕ → JobOutcome R E) (sched : List ℕ) :
    numWorkers .nan = 0 ∧
    (runPool abortOnError .nan jobs op sched).cursor = 0 ∧
    inParallelResult abortOnError .nan jobs op sched = .some (.ok []) ∧
    withConcurrencyModel .nan jobs op sched = .some (.ok []) := by
  have hrun : ∀ (b : Bool), runPool b .nan jobs op sched =
      (⟨0, fun _ => none, [], none⟩ : PoolState R E) := by
    intro b
    rw [runPool]
    have hinit : initPool R E (numWorkers .nan) jobs.length =
        (⟨0, fun _ => none, [], none⟩ : PoolState R E) := rfl
    rw [hinit]
    induction sched with
    | nil => rfl
    | cons a l ih =>
      rw [List.foldl_cons, settle_empty_workers b jobs op _ a rfl]
      exact ih
  have hres : ∀ (b : Bool),
      inParallelResult b .nan jobs op sched = .some (.ok []) := by
    intro b
    unfold inParallelResult
    rw [hrun b]
    rfl
  refine ⟨rfl, ?_, hres abortOnError, ?_⟩
  · rw [hrun abortOnError]
  · rw [withConcurrencyModel]
    exact hres false

/-- Claim C1 (code evaluation, refuting the claimed equivalence):
`withConcurrency(1, [job], operation)` with a single failing job resolves to
an array containing the captured error as a plain value — it does NOT reject
— whereas `inParallel(1, [job], operation, {abortOnError: true})` rejects
with that error.  So `withConcurrency` (which forwards to `inParallel`
without any options) does not behave like abort mode, contrary to the claim
and to its own doc comment and README. -/
theorem withConcurrency_not_abort_evaluation :
    withConcurrencyModel (.num 1) [(0 : ℕ)]
      (fun _ _ => JobOutcome.failure (R := ℕ) (9 : ℕ)) [0] =
      .some (.ok [JobOutcome.failure 9]) ∧
    inParallelResult true (.num 1) [(0 : ℕ)]
      (fun _ _ => JobOutcome.failure (R := ℕ) (9 : ℕ)) [0] =
      .some (.error 9) ∧
    (.some (.ok [JobOutcome.failure 9]) :
      Option (Except ℕ (List (JobOutcome ℕ ℕ)))) ≠ .some (.error 9) :=
  ⟨by decide, by decide, by decide⟩

theorem settle_failed_noop {D R E : Type} (abortOnError : Bool) (jobs : List D)
    (op : D → ℕ → JobOutcome R E) (s : PoolState R E) (w : ℕ) (e : E)
    (h : s.workers[w]? = .some (WorkerStatus.failed e)) :
    settle abortOnError jobs op s w = s := by
  simp only [settle, h]

theorem settle_workers_getElem_ne {D R E : Type} (abortOnError : Bool)
    (jobs : List D) (op : D → ℕ → JobOutcome R E) (s : PoolState R E)
    (w w' : ℕ) (hne : w' ≠ w) :
    (settle abortOnError jobs op s w').workers[w]? = s.workers[w]? := by
  unfold settle
  split
  · split
    · split
      · dsimp only
        rw [List.getElem?_set_ne hne]
      · split <;> (dsimp only; rw [List.getElem?_set_ne hne])
    · rfl
  · rfl

/-- Claim C6 (amended): in abort mode,
(1) whenever the overall call fails, the rejection reason is a verbatim job
failure (the first worker rejection delivered to `Promise.all`);
(2) the settlement of a worker that has already failed changes nothing —
that worker's loop has exited and it never pulls another job;
(3) a failed worker stays failed (with the same error) across any further
settlement event.
However — unlike what the claim states — OTHER workers do keep pulling new
jobs from the shared cursor after a failure; see the counterexample. -/
theorem inParallel_abort_behavior {D R E : Type} (parallelism : JSNum)
    (jobs : List D) (op : D → ℕ → JobOutcome R E) (sched : List ℕ) (e : E) :
    (inParallelResult true parallelism jobs op sched = .some (.error e) →
      ∃ j d, jobs[j]? = .some d ∧ op d j = JobOutcome.failure e) ∧
    (∀ (s : PoolState R E) (w : ℕ) (e' : E),
      s.workers[w]? = .some (WorkerStatus.failed e') →
      settle true jobs op s w = s) ∧
    (∀ (s : PoolState R E) (w w' : ℕ) (e' : E),
      s.workers[w]? = .some (WorkerStatus.failed e') →
      (settle true jobs op s w').workers[w]? =
        .some (WorkerStatus.failed e')) := by
  refine ⟨?_, ?_, ?_⟩
  · intro hres
    have hinv := runPool_inv true parallelism jobs op sched
    unfold inParallelResult at hres
    set s := runPool true parallelism jobs op sched with hsdef
    cases hfe : s.firstError with
    | some e0 =>
      simp only [hfe] at hres
      have h2 : Except.error (α := List (JobOutcome R E)) e0 = .error e := by
        injection hres
      have h3 : e0 = e := by injection h2
      subst h3
      exact hinv.err_valid e0 hfe
    | none =>
      simp only [hfe] at hres
      cases hdone : allDone s with
      | true =>
        rw [hdone] at hres
        simp only [if_true] at hres
        have h2 : Except.ok (ε := E) (gather s) = .error e := by injection hres
        exact Except.noConfusion h2
      | false =>
        rw [hdone] at hres
        simp at hres
  · intro s w e' hfail
    exact settle_failed_noop true jobs op s w e' hfail
  · intro s w w' e' hfail
    by_cases hww : w' = w
    · subst hww
      rw [settle_failed_noop true jobs op s w' e' hfail]
      exact hfail
    · rw [settle_workers_getElem_ne true jobs op s w w' hww]
      exact hfail

/-- Witness for C6 at a concrete input: one worker, one job failing with 7,
whose settlement rejects the call; the rejection reason is the verbatim
failure of job 0. -/
theorem inParallel_abort_behavior_witness :
    ∃ j d, ([(5 : ℕ)] : List ℕ)[j]? = .some d ∧
      (fun (_ : ℕ) (_ : ℕ) => JobOutcome.failure (R := ℕ) (7 : ℕ)) d j =
        JobOutcome.failure 7 :=
  (inParallel_abort_behavior (.num 1) [(5 : ℕ)]
    (fun _ _ => JobOutcome.failure (R := ℕ) (7 : ℕ)) [0] 7).1 (by decide)

/-- Claim C6 (counterexample to "after one job has failed no worker pulls a
new job from the shared cursor"): two workers over three jobs where job 0
fails.  After the first settlement, worker 0 has failed (the call is already
rejected) and the cursor stands at 2; the later settlement of worker 1's job
then pulls job 2 from the shared cursor — the cursor rises to 3 and worker 1
is running job 2 — even though a job has already failed. -/
theorem inParallel_abort_pull_after_failure :
    ((runPool true (.num 2) [(10 : ℕ), 20, 30]
        (fun d i => if i = 0 then JobOutcome.failure (R := ℕ) 7 else .success d)
        [0]).workers[0]? = .some (WorkerStatus.failed 7)) ∧
    (runPool true (.num 2) [(10 : ℕ), 20, 30]
        (fun d i => if i = 0 then JobOutcome.failure (R := ℕ) 7 else .success d)
        [0]).cursor = 2 ∧
    (runPool true (.num 2) [(10 : ℕ), 20, 30]
        (fun d i => if i = 0 then JobOutcome.failure (R := ℕ) 7 else .success d)
        [0, 1]).cursor = 3 ∧
    ((runPool true (.num 2) [(10 : ℕ), 20, 30]
        (fun d i => if i = 0 then JobOutcome.failure (R := ℕ) 7 else .success d)
        [0, 1]).workers[1]? = .some (WorkerStatus.running 2)) :=
  ⟨by decide, by decide, by decide, by decide⟩

/-! ## Timeout wrapper: `timeoutResolve` (source lines 281-293) and
`timeoutReject` (source lines 307-319)

Both race the operation's promise against a delayed settlement whose payload
is computed lazily when the timer fires: the timer callback probes the
operation's state and invokes the caller's supplier only if the probe
observes `Pending`; otherwise it produces an unused placeholder.  The
embedding replays the primitive events of one run — the operation settling,
the timer firing — in timeline order and counts supplier invocations. -/

/-- A primitive event in the life of one `timeoutResolve`/`timeoutReject`
call: the wrapped operation settles, or the `setTimeout` timer fires. -/
inductive TimeoutEvent (T E : Type) : Type where
  | opSettles (o : JobOutcome T E) : TimeoutEvent T E
  | timerFires : TimeoutEvent T E
deriving DecidableEq

/-- The number of timer firings in a timeline (`setTimeout` schedules
exactly one timer, so real timelines have at most one). -/
def countTimerFires {T E : Type} : List (TimeoutEvent T E) → ℕ
  | [] => 0
  | .timerFires :: rest => countTimerFires rest + 1
  | .opSettles _ :: rest => countTimerFires rest

/-- Observable state of one run: the operation's settled outcome (if any),
the settlement of the `Promise.race` result (first settlement wins, later
ones are ignored), and how many times the fallback supplier was invoked. -/
structure TimeoutRunState (T E : Type) : Type where
  opOutcome : Option (JobOutcome T E)
  raceOutcome : Option (JobOutcome T E)
  supplierCalls : ℕ
deriving DecidableEq

/-- One event: if the operation settles, it settles (once) and, when the
race is still open, wins it.  If the timer fires, the callback runs the
state probe (source lines 287-290 / 313-316): if the probe observes Pending
the supplier is invoked (counted) and its outcome settles the timer branch,
deciding the race if still open; if the probe observes a settled state the
branch yields the unused placeholder, the supplier NOT being invoked, and
the race was already decided by the operation. -/
def timeoutStep {T E : Type} (fallback : JobOutcome T E)
    (s : TimeoutRunState T E) : TimeoutEvent T E → TimeoutRunState T E
  | .opSettles o =>
    { s with opOutcome := (s.opOutcome).orElse (fun _ => .some o),
             raceOutcome := (s.raceOutcome).orElse (fun _ => .some o) }
  | .timerFires =>
    match s.opOutcome with
    | none =>
      { s with supplierCalls := s.supplierCalls + 1,
               raceOutcome := (s.raceOutcome).orElse (fun _ => .some fallback) }
    | .some _ => s

/-- A `timeoutResolve(op, ms, supplier)` run over a given event timeline:
the timer branch fulfills with the supplier's value `v`. -/
def timeoutResolveRun {T E : Type} (v : T) (events : List (TimeoutEvent T E)) :
    TimeoutRunState T E :=
  events.foldl (timeoutStep (.success v)) ⟨none, none, 0⟩

/-- A `timeoutReject(op, ms, supplier)` run over a given event timeline:
the timer branch rejects with the supplier's reason `e`. -/
def timeoutRejectRun {T E : Type} (e : E) (events : List (TimeoutEvent T E)) :
    TimeoutRunState T E :=
  events.foldl (timeoutStep (.failure e)) ⟨none, none, 0⟩

/-- Whether, along a timeline, the timer fires at a moment when the
operation has not yet settled (the argument tracks whether it has). -/
def timerWhilePending {T E : Type} : Bool → List (TimeoutEvent T E) → Bool
  | _, [] => false
  | _, .opSettles _ :: rest => timerWhilePending true rest
  | settled, .timerFires :: rest => (!settled) || timerWhilePending settled rest

theorem timeoutRun_calls_le {T E : Type} (fallback : JobOutcome T E) :
    ∀ (events : List (TimeoutEvent T E)) (s : TimeoutRunState T E),
    (events.foldl (timeoutStep fallback) s).supplierCalls ≤
      s.supplierCalls + countTimerFires events := by
  intro events
  induction events with
  | nil => intro s; simp [countTimerFires]
  | cons ev rest ih =>
    intro s
    rw [List.foldl_cons]
    have h := ih (timeoutStep fallback s ev)
    cases ev with
    | opSettles o =>
      have hstep : (timeoutStep fallback s (.opSettles o)).supplierCalls =
          s.supplierCalls := by
        simp [timeoutStep]
      rw [hstep] at h
      rw [countTimerFires]
      omega
    | timerFires =>
      have hstep : (timeoutStep fallback s .timerFires).supplierCalls ≤
          s.supplierCalls + 1 := by
        cases ho : s.opOutcome with
        | none => simp [timeoutStep, ho]
        | some o => simp [timeoutStep, ho]
      rw [countTimerFires]
      omega

theorem timeoutRun_calls_none {T E : Type} (fallback : JobOutcome T E) :
    ∀ (events : List (TimeoutEvent T E)) (s : TimeoutRunState T E),
    timerWhilePending (s.opOutcome).isSome events = false →
    (events.foldl (timeoutStep fallback) s).supplierCalls = s.supplierCalls := by
  intro events
  induction events with
  | nil => intro s _; rfl
  | cons ev rest ih =>
    intro s hw
    rw [List.foldl_cons]
    cases ev with
    | opSettles o =>
      rw [timerWhilePending] at hw
      have hnext : ((timeoutStep fallback s (TimeoutEvent.opSettles o)).opOutcome).isSome =
          true := by
        simp only [timeoutStep]
        cases s.opOutcome <;> rfl
      have hcall := ih (timeoutStep fallback s (TimeoutEvent.opSettles o))
        (by rw [hnext]; exact hw)
      rw [hcall]
      simp [timeoutStep]
    | timerFires =>
      rw [timerWhilePending] at hw
      have hsettled : (s.opOutcome).isSome = true := by
        cases hos : (s.opOutcome).isSome
        · rw [hos] at hw
          simp at hw
        · rfl
      obtain ⟨o, ho⟩ := Option.isSome_iff_exists.mp hsettled
      have hstep : timeoutStep fallback s .timerFires = s := by
        simp only [timeoutStep, ho]
      rw [hstep]
      rw [hsettled] at hw
      simp only [Bool.not_true, Bool.false_or] at hw
      have hgoal := ih s (by rw [hsettled]; exact hw)
      exact hgoal

/-- Claim C7: in both `timeoutResolve` and `timeoutReject`, over any event
timeline in which the timer fires at most once (a `setTimeout` timer fires
at most once), the fallback supplier is invoked at most once; and if the
timer never fires while the operation is still pending — in particular if
the operation settles before the timer fires, or the timer never fires —
the supplier is never invoked at all. -/
theorem timeout_supplier_at_most_once {T E : Type} (v : T) (e : E)
    (events : List (TimeoutEvent T E))
    (hcount : countTimerFires events ≤ 1) :
    (timeoutResolveRun v events).supplierCalls ≤ 1 ∧
    (timeoutRejectRun e events).supplierCalls ≤ 1 ∧
    (timerWhilePending false events = false →
      (timeoutResolveRun v events).supplierCalls = 0 ∧
      (timeoutRejectRun e events).supplierCalls = 0) := by
  refine ⟨?_, ?_, ?_⟩
  · have h := timeoutRun_calls_le (T := T) (E := E) (.success v) events ⟨none, none, 0⟩
    dsimp only at h
    simp only [timeoutResolveRun]
    omega
  · have h := timeoutRun_calls_le (T := T) (E := E) (.failure e) events ⟨none, none, 0⟩
    dsimp only at h
    simp only [timeoutRejectRun]
    omega
  · intro hw
    constructor
    · exact timeoutRun_calls_none (.success v) events ⟨none, none, 0⟩ hw
    · exact timeoutRun_calls_none (.failure e) events ⟨none, none, 0⟩ hw

/-- Witness for C7 at a concrete timeline: the operation fulfills with 3
before the timer fires — neither wrapper invokes its supplier. -/
theorem timeout_supplier_at_most_once_witness :
    (timeoutResolveRun (E := ℕ) (5 : ℕ)
        [TimeoutEvent.opSettles (JobOutcome.success 3), .timerFires]).supplierCalls = 0 ∧
    (timeoutRejectRun (T := ℕ) (8 : ℕ)
        [TimeoutEvent.opSettles (JobOutcome.success 3), .timerFires]).supplierCalls = 0 :=
  (timeout_supplier_at_most_once (5 : ℕ) (8 : ℕ)
    [TimeoutEvent.opSettles (JobOutcome.success 3), .timerFires]
    (by decide)).2.2 (by decide)

/-! ## Keyed mutex: `PromiseUtils.synchronized` (source lines 348-373)

The body reads the Lock Table (source line 350, `synchronizationLocks.get`),
then — whenever a previous entry exists — SUSPENDS in
`await PromiseUtils.promiseState(previousResultPromise)` (line 353) before
branching: the Pending branch chains onto the previous promise and reaches
the table write (line 371) without further suspension; the settled branch
suspends once more (`await previousResultPromise.catch(...)`, line 366),
then invokes the operation and writes the table; the no-entry branch invokes
the operation and reaches the write with no suspension at all.  Two
concurrent calls on the same key are modelled as two threads of atomic
segments split at these `await`s, interleaved by a schedule. -/

/-- The promises in play in a two-call scenario on one key: the pre-existing
table entry, and the result promise registered by each call (`false` = the
first caller A, `true` = the second caller B). -/
inductive PromId : Type where
  | initial : PromId
  | fresh (t : Bool) : PromId
deriving DecidableEq

/-- Program counter of one `synchronized` call, split at its suspension
points. -/
inductive SyncPc : Type where
  | start : SyncPc
  | probing : SyncPc
  | fetch : SyncPc
  | done : SyncPc
deriving DecidableEq

/-- One `synchronized` call: its next segment to run, and (once the Lock
Table has been read) the previous entry it observed. -/
structure SyncThread : Type where
  pc : SyncPc
  observedPrev : Option (Option PromId)
deriving DecidableEq

/-- Shared state of two concurrent `synchronized` calls on one key: the Lock
Table entry for that key, the two call states, and the order in which
operation bodies started running. -/
structure SyncState : Type where
  table : Option PromId
  thA : SyncThread
  thB : SyncThread
  opStarted : List Bool
deriving DecidableEq

/-- The call state of thread `t`. -/
def syncThread (s : SyncState) : Bool → SyncThread
  | true => s.thB
  | false => s.thA

/-- Replace the call state of thread `t`. -/
def setSyncThread (s : SyncState) (t : Bool) (th : SyncThread) : SyncState :=
  match t with
  | true => { s with thB := th }
  | false => { s with thA := th }

/-- One event-loop turn of call `t`.  `settledP` gives the settlement status
of each promise (no promise settles during these short microtask-only runs):
- `start`: read the table (line 350).  No entry: the whole undefined-branch
  runs synchronously — the operation body starts (line 362) and the fresh
  result promise is written to the table (line 371) with no suspension.
  Some entry: suspend awaiting the state probe (line 353).
- `probing`: resume with the probed state.  Pending: chain onto the previous
  promise (line 357) and write the table (line 371) — the chained operation
  body does not start now (it runs only after the previous promise settles,
  which does not happen in these runs).  Settled: suspend once more awaiting
  the settled result (line 366).
- `fetch`: resume: the operation body starts (line 366) and its promise is
  written to the table (line 371).
- `done`: nothing left to run. -/
def syncStep (settledP : PromId → Bool) (s : SyncState) (t : Bool) : SyncState :=
  match (syncThread s t).pc with
  | .start =>
    match s.table with
    | none =>
      { setSyncThread s t ⟨.done, .some none⟩ with
          table := .some (.fresh t), opStarted := s.opStarted ++ [t] }
    | .some p =>
      setSyncThread s t ⟨.probing, .some (.some p)⟩
  | .probing =>
    match (syncThread s t).observedPrev with
    | .some (.some p) =>
      if settledP p then
        setSyncThread s t ⟨.fetch, .some (.some p)⟩
      else
        { setSyncThread s t ⟨.done, .some (.some p)⟩ with
            table := .some (.fresh t) }
    | _ => s
  | .fetch =>
    { setSyncThread s t ⟨.done, (syncThread s t).observedPrev⟩ with
        table := .some (.fresh t), opStarted := s.opStarted ++ [t] }
  | .done => s

/-- A run of the two-call scenario under an interleaving `sched` (each entry
names the thread whose next ready segment the event loop runs). -/
def syncRun (settledP : PromId → Bool) (start : SyncState)
    (sched : List Bool) : SyncState :=
  sched.foldl (syncStep settledP) start

/-- Settlement status in the counterexample scenario: the pre-existing table
entry is settled; the fresh promises registered by A and B never settle
during the run. -/
def syncSettledDemo : PromId → Bool :=
  fun p => match p with
  | .initial => true
  | .fresh _ => false

/-- The counterexample run: the table holds the settled promise `initial`,
calls A and B start back to back, and the interleaving is the one FIFO
microtask scheduling actually produces:
A start, B start, A probe-resume, B probe-resume, A fetch-resume,
B fetch-resume. -/
def syncRaceDemo : SyncState :=
  syncRun syncSettledDemo
    ⟨.some .initial, ⟨.start, none⟩, ⟨.start, none⟩, []⟩
    [false, true, false, true, false, true]

/-- Claim C2 (counterexample): with a previous SETTLED entry in the Lock
Table, two concurrent `synchronized` calls on the same key can BOTH observe
that same settled entry — the suspension in `await promiseState(...)`
between the table read and the table write lets B read the table before A
has written it — and both operation bodies then run, unordered: both start
during the run while neither call's registered promise has settled. -/
theorem synchronized_settled_entry_race :
    syncRaceDemo.thA.observedPrev = .some (.some .initial) ∧
    syncRaceDemo.thB.observedPrev = .some (.some .initial) ∧
    syncRaceDemo.opStarted = [false, true] ∧
    syncSettledDemo .initial = true ∧
    syncSettledDemo (.fresh false) = false ∧
    syncSettledDemo (.fresh true) = false :=
  ⟨by decide, by decide, by decide, rfl, rfl, rfl⟩

/-- Both calls observed "no entry" in the Lock Table. -/
def bothSawNoEntry (s : SyncState) : Bool :=
  (s.thA.observedPrev == .some none) && (s.thB.observedPrev == .some none)

/-- Invariant giving the no-entry exclusivity: while the table is empty
nobody has observed "no entry" yet (the observer writes in the same
synchronous segment), and at most one call ever observes "no entry". -/
def noEntrySafe (s : SyncState) : Prop :=
  (s.table = none →
    s.thA.observedPrev ≠ .some none ∧ s.thB.observedPrev ≠ .some none) ∧
  ¬(s.thA.observedPrev = .some none ∧ s.thB.observedPrev = .some none)

theorem syncStep_noEntrySafe (settledP : PromId → Bool) (s : SyncState)
    (t : Bool) (h : noEntrySafe s) : noEntrySafe (syncStep settledP s t) := by
  obtain ⟨hI, hJ⟩ := h
  cases t
  · cases hpc : s.thA.pc with
    | start =>
      cases ht : s.table with
      | none =>
        have hobs := hI ht
        simp only [syncStep, syncThread, setSyncThread, ht, hpc]
        refine ⟨fun habs => Option.noConfusion habs, ?_⟩
        rintro ⟨h1, h2⟩
        exact hobs.2 h2
      | some p =>
        simp only [syncStep, syncThread, setSyncThread, ht, hpc]
        refine ⟨fun habs => Option.noConfusion habs, ?_⟩
        rintro ⟨h1, h2⟩
        exact Option.noConfusion (Option.some.inj h1)
    | probing =>
      cases hop : s.thA.observedPrev with
      | none =>
        simp only [syncStep, syncThread, setSyncThread, hpc, hop]
        exact ⟨hI, hJ⟩
      | some prev =>
        cases prev with
        | none =>
          simp only [syncStep, syncThread, setSyncThread, hpc, hop]
          exact ⟨hI, hJ⟩
        | some p =>
          simp only [syncStep, syncThread, setSyncThread, hpc, hop]
          cases hsp : settledP p with
          | true =>
            simp only [hsp, if_true]
            refine ⟨fun habs => ?_, ?_⟩
            · exact ⟨fun h1 => Option.noConfusion (Option.some.inj h1),
                (hI habs).2⟩
            · rintro ⟨h1, h2⟩
              exact Option.noConfusion (Option.some.inj h1)
          | false =>
            simp only [hsp, Bool.false_eq_true, if_false]
            refine ⟨fun habs => Option.noConfusion habs, ?_⟩
            rintro ⟨h1, h2⟩
            exact Option.noConfusion (Option.some.inj h1)
    | fetch =>
      simp only [syncStep, syncThread, setSyncThread, hpc]
      refine ⟨fun habs => Option.noConfusion habs, ?_⟩
      rintro ⟨h1, h2⟩
      exact hJ ⟨h1, h2⟩
    | done =>
      simp only [syncStep, syncThread, setSyncThread, hpc]
      exact ⟨hI, hJ⟩
  · cases hpc : s.thB.pc with
    | start =>
      cases ht : s.table with
      | none =>
        have hobs := hI ht
        simp only [syncStep, syncThread, setSyncThread, ht, hpc]
        refine ⟨fun habs => Option.noConfusion habs, ?_⟩
        rintro ⟨h1, h2⟩
        exact hobs.1 h1
      | some p =>
        simp only [syncStep, syncThread, setSyncThread, ht, hpc]
        refine ⟨fun habs => Option.noConfusion habs, ?_⟩
        rintro ⟨h1, h2⟩
        exact Option.noConfusion (Option.some.inj h2)
    | probing =>
      cases hop : s.thB.observedPrev with
      | none =>
        simp only [syncStep, syncThread, setSyncThread, hpc, hop]
        exact ⟨hI, hJ⟩
      | some prev =>
        cases prev with
        | none =>
          simp only [syncStep, syncThread, setSyncThread, hpc, hop]
          exact ⟨hI, hJ⟩
        | some p =>
          simp only [syncStep, syncThread, setSyncThread, hpc, hop]
          cases hsp : settledP p with
          | true =>
            simp only [hsp, if_true]
            refine ⟨fun habs => ?_, ?_⟩
            · exact ⟨(hI habs).1,
                fun h2 => Option.noConfusion (Option.some.inj h2)⟩
            · rintro ⟨h1, h2⟩
              exact Option.noConfusion (Option.some.inj h2)
          | false =>
            simp only [hsp, Bool.false_eq_true, if_false]
            refine ⟨fun habs => Option.noConfusion habs, ?_⟩
            rintro ⟨h1, h2⟩
            exact Option.noConfusion (Option.some.inj h2)
    | fetch =>
      simp only [syncStep, syncThread, setSyncThread, hpc]
      refine ⟨fun habs => Option.noConfusion habs, ?_⟩
      rintro ⟨h1, h2⟩
      exact hJ ⟨h1, h2⟩
    | done =>
      simp only [syncStep, syncThread, setSyncThread, hpc]
      exact ⟨hI, hJ⟩

/-- Claim C2 (amended, the part that does hold): in the NO-ENTRY case the
read-to-write sequence is suspension-free, so from an empty Lock Table, under
every interleaving of two concurrent `synchronized` calls on the same key and
every settlement status of the promises involved, it is impossible for both
calls to observe "no entry": the first reader registers its promise in the
same synchronous segment, so the second reader finds the table occupied and
chains. -/
theorem synchronized_no_entry_exclusive (settledP : PromId → Bool)
    (sched : List Bool) :
    bothSawNoEntry
      (syncRun settledP ⟨none, ⟨.start, none⟩, ⟨.start, none⟩, []⟩ sched) =
      false := by
  have base : noEntrySafe ⟨none, ⟨.start, none⟩, ⟨.start, none⟩, []⟩ := by
    refine ⟨fun _ => ⟨?_, ?_⟩, ?_⟩
    · intro habs
      exact Option.noConfusion habs
    · intro habs
      exact Option.noConfusion habs
    · rintro ⟨h1, h2⟩
      exact Option.noConfusion h1
  have gen : ∀ (l : List Bool) (st : SyncState), noEntrySafe st →
      noEntrySafe (syncRun settledP st l) := by
    intro l
    induction l with
    | nil => exact fun st hst => hst
    | cons a l ih =>
      intro st hst
      rw [syncRun, List.foldl_cons]
      exact ih _ (syncStep_noEntrySafe settledP st a hst)
  have hsafe := gen sched _ base
  cases hb : bothSawNoEntry
      (syncRun settledP ⟨none, ⟨.start, none⟩, ⟨.start, none⟩, []⟩ sched) with
  | false => rfl
  | true =>
    exfalso
    rw [bothSawNoEntry] at hb
    rw [Bool.and_eq_true, beq_iff_eq, beq_iff_eq] at hb
    exact hsafe.2 ⟨hb.1, hb.2⟩
